import Mathlib

/-!
Verification of the semantic front end of the grass stylesheet compiler.

Each section shallowly embeds one part of the Rust source
(`src/common.rs`, `src/value/number/mod.rs`, `src/builtin/list.rs`,
`src/builtin/color/other.rs`, `src/value/parse.rs`, `src/style.rs`,
`src/atrule/mixin.rs`) as executable Lean definitions, and proves or
refutes the specification's statements about it.
-/

namespace Grass

/-! ## Operators (`src/common.rs`) -/

/-- The binary/keyword operator type, from `enum Op` in `common.rs`. -/
inductive Op where
  | Equal
  | NotEqual
  | GreaterThan
  | GreaterThanEqual
  | LessThan
  | LessThanEqual
  | Plus
  | Minus
  | Mul
  | Div
  | Rem
  | And
  | Or
  | Not
deriving DecidableEq

/-- Rendering of operators, from `impl Display for Op` in `common.rs`. -/
def Op.display : Op → String
  | .Equal => "=="
  | .NotEqual => "!="
  | .GreaterThanEqual => ">="
  | .LessThanEqual => "<="
  | .GreaterThan => ">"
  | .LessThan => "<"
  | .Plus => "+"
  | .Minus => "-"
  | .Mul => "*"
  | .Div => "/"
  | .Rem => "%"
  | .And => "and"
  | .Or => "or"
  | .Not => "not"

/-- Operator precedence, from `Op::precedence` in `common.rs`
(higher numbers are evaluated first). -/
def Op.precedence : Op → Nat
  | .And | .Or | .Not => 0
  | .Equal | .NotEqual | .GreaterThan | .GreaterThanEqual
  | .LessThan | .LessThanEqual => 1
  | .Plus | .Minus => 2
  | .Mul | .Div | .Rem => 3

/-- List separators, from `enum ListSeparator` in `common.rs`. -/
inductive ListSeparator where
  | Space
  | Comma
deriving DecidableEq

/-- Bracket metadata of lists, from `enum Brackets` in `common.rs`. -/
inductive Brackets where
  | None
  | Bracketed
deriving DecidableEq

/-! ## The two-tier number (`src/value/number/mod.rs`) -/

/-- Smallest value of a 64-bit signed integer. -/
def i64Min : Int := -(2 ^ 63)

/-- Largest value of a 64-bit signed integer. -/
def i64Max : Int := 2 ^ 63 - 1

/-- Whether an integer is representable as an `i64`. -/
def fits64 (n : Int) : Bool := decide (i64Min ≤ n) && decide (n ≤ i64Max)

/-- Whether a rational (in lowest terms, as `Rational64` keeps it) is
representable with `i64` numerator and denominator. -/
def repr64 (q : ℚ) : Bool := fits64 q.num && fits64 (q.den : Int)

/-- Modelled from the spec: the checked arithmetic of the `Machine`
(64-bit `Rational64`) tier comes from the external num-rational crate,
which is not part of this repository; per the spec it succeeds exactly
when the exact rational result is representable in the 64-bit tier and
signals overflow otherwise. -/
def checked64 (f : ℚ → ℚ → ℚ) (a b : ℚ) : Option ℚ :=
  let r := f a b
  if repr64 r then some r else none

/-- Modelled from the spec: checked division of the machine tier also
fails on a zero divisor (the external crate returns `None` there). -/
def checkedDiv64 (a b : ℚ) : Option ℚ :=
  if b = 0 then none else checked64 (· / ·) a b

/-- Truncation toward zero of a rational, as num-rational's
`to_integer`/`trunc` behave. -/
def ratTruncInt (q : ℚ) : Int := if 0 ≤ q then ⌊q⌋ else ⌈q⌉

/-- The rational remainder used by the `Big` tier:
`x - (x / y).trunc() * y`, which is how `%` behaves on `BigRational`. -/
def ratRem (a b : ℚ) : ℚ := a - (ratTruncInt (a / b) : ℚ) * b

/-- The two-tier number, from `enum Number` in `value/number/mod.rs`:
`Machine` holds a 64-bit rational, `Big` an arbitrary-precision one.
Both tiers denote exact rationals. -/
inductive Number where
  | Machine : ℚ → Number
  | Big : ℚ → Number
deriving DecidableEq

/-- The rational denoted by a number, independent of its tier. -/
def Number.toRat : Number → ℚ
  | .Machine q => q
  | .Big q => q

/-- Addition, from `impl Add for Number`: two machine operands try the
checked 64-bit addition and fall back to `Big` on overflow; any `Big`
operand forces a `Big` result via the lossless `new_raw` conversion. -/
def Number.add : Number → Number → Number
  | .Machine a, .Machine b =>
    match checked64 (· + ·) a b with
    | some v => .Machine v
    | none => .Big (a + b)
  | .Machine a, .Big b => .Big (a + b)
  | .Big a, .Machine b => .Big (a + b)
  | .Big a, .Big b => .Big (a + b)

/-- Subtraction, from `impl Sub for Number` (same shape as addition). -/
def Number.sub : Number → Number → Number
  | .Machine a, .Machine b =>
    match checked64 (· - ·) a b with
    | some v => .Machine v
    | none => .Big (a - b)
  | .Machine a, .Big b => .Big (a - b)
  | .Big a, .Machine b => .Big (a - b)
  | .Big a, .Big b => .Big (a - b)

/-- Multiplication, from `impl Mul for Number` (same shape as addition). -/
def Number.mul : Number → Number → Number
  | .Machine a, .Machine b =>
    match checked64 (· * ·) a b with
    | some v => .Machine v
    | none => .Big (a * b)
  | .Machine a, .Big b => .Big (a * b)
  | .Big a, .Machine b => .Big (a * b)
  | .Big a, .Big b => .Big (a * b)

/-- Division, from `impl Div for Number` (same shape as addition, with
the zero-divisor failure of `checked_div`). -/
def Number.div : Number → Number → Number
  | .Machine a, .Machine b =>
    match checkedDiv64 a b with
    | some v => .Machine v
    | none => .Big (a / b)
  | .Machine a, .Big b => .Big (a / b)
  | .Big a, .Machine b => .Big (a / b)
  | .Big a, .Big b => .Big (a / b)

/-- Remainder, from `impl Rem for Number`: unlike the other four
operations, two machine operands are converted to `Big` unconditionally
(the source carries the comment `todo: checked_rem for ratio?`). -/
def Number.rem : Number → Number → Number
  | .Machine a, .Machine b => .Big (ratRem a b)
  | .Machine a, .Big b => .Big (ratRem a b)
  | .Big a, .Machine b => .Big (ratRem a b)
  | .Big a, .Big b => .Big (ratRem a b)

/-- Two machine operands of `Number::add` go through the checked
64-bit addition and promote to `Big` exactly on overflow. -/
theorem Number.add_machine_machine (a b : ℚ) :
    Number.add (.Machine a) (.Machine b) =
      if repr64 (a + b) then .Machine (a + b) else .Big (a + b) := by
  by_cases h : repr64 (a + b) = true <;> simp [Number.add, checked64, h]

/-- Two machine operands of `Number::sub` go through the checked
64-bit subtraction and promote to `Big` exactly on overflow. -/
theorem Number.sub_machine_machine (a b : ℚ) :
    Number.sub (.Machine a) (.Machine b) =
      if repr64 (a - b) then .Machine (a - b) else .Big (a - b) := by
  by_cases h : repr64 (a - b) = true <;> simp [Number.sub, checked64, h]

/-- Two machine operands of `Number::mul` go through the checked
64-bit multiplication and promote to `Big` exactly on overflow. -/
theorem Number.mul_machine_machine (a b : ℚ) :
    Number.mul (.Machine a) (.Machine b) =
      if repr64 (a * b) then .Machine (a * b) else .Big (a * b) := by
  by_cases h : repr64 (a * b) = true <;> simp [Number.mul, checked64, h]

/-- Two machine operands of `Number::div` (nonzero divisor) go through
the checked 64-bit division and promote to `Big` exactly on overflow. -/
theorem Number.div_machine_machine (a b : ℚ) (hb : b ≠ 0) :
    Number.div (.Machine a) (.Machine b) =
      if repr64 (a / b) then .Machine (a / b) else .Big (a / b) := by
  by_cases h : repr64 (a / b) = true <;>
    simp [Number.div, checkedDiv64, checked64, h, hb]

/-- The result of every tier combination of every arithmetic operation
denotes the exact rational value of the operation. -/
theorem Number.toRat_ops (x y : Number) :
    (Number.add x y).toRat = x.toRat + y.toRat ∧
    (Number.sub x y).toRat = x.toRat - y.toRat ∧
    (Number.mul x y).toRat = x.toRat * y.toRat ∧
    (Number.rem x y).toRat = ratRem x.toRat y.toRat ∧
    (y.toRat ≠ 0 → (Number.div x y).toRat = x.toRat / y.toRat) := by
  cases x with
  | Machine a =>
    cases y with
    | Machine b =>
      refine ⟨?_, ?_, ?_, rfl, fun hy => ?_⟩
      · rw [Number.add_machine_machine]; split <;> rfl
      · rw [Number.sub_machine_machine]; split <;> rfl
      · rw [Number.mul_machine_machine]; split <;> rfl
      · rw [Number.div_machine_machine a b hy]; split <;> rfl
    | Big b => exact ⟨rfl, rfl, rfl, rfl, fun _ => rfl⟩
  | Big a =>
    cases y with
    | Machine b => exact ⟨rfl, rfl, rfl, rfl, fun _ => rfl⟩
    | Big b => exact ⟨rfl, rfl, rfl, rfl, fun _ => rfl⟩

/-- C2 counterexample: `Number::rem` on two machine operands never
attempts a checked 64-bit operation and never returns a `Machine`
result: `7 % 4` on machine operands yields `Big 3` although the exact
result `3` is representable in the machine tier. -/
theorem c2_rem_counterexample :
    Number.rem (Number.Machine 7) (Number.Machine 4) = Number.Big 3 ∧
    repr64 (ratRem 7 4) = true ∧
    Number.Big 3 ≠ Number.Machine 3 := by
  have h3 : ratRem 7 4 = 3 := by norm_num [ratRem, ratTruncInt]
  refine ⟨?_, ?_, fun h => Number.noConfusion h⟩
  · show Number.Big (ratRem 7 4) = Number.Big 3
    rw [h3]
  · rw [h3]
    norm_num [repr64, fits64, i64Min, i64Max]

/-- C2 (amended): `add`, `sub`, `mul` and `div` on two machine operands
first attempt the 64-bit checked operation and return a `Machine`
result on success, promoting to `Big` exactly on checked-arithmetic
overflow; `rem` however always converts machine operands to `Big` and
never returns a `Machine` result.  For all tier combinations the
rational value of each result is identical whether computed in the
machine tier or after promotion to `Big`. -/
theorem c2_machine_first_except_rem :
    (∀ a b : ℚ, Number.add (.Machine a) (.Machine b) =
      if repr64 (a + b) then .Machine (a + b) else .Big (a + b)) ∧
    (∀ a b : ℚ, Number.sub (.Machine a) (.Machine b) =
      if repr64 (a - b) then .Machine (a - b) else .Big (a - b)) ∧
    (∀ a b : ℚ, Number.mul (.Machine a) (.Machine b) =
      if repr64 (a * b) then .Machine (a * b) else .Big (a * b)) ∧
    (∀ a b : ℚ, b ≠ 0 → Number.div (.Machine a) (.Machine b) =
      if repr64 (a / b) then .Machine (a / b) else .Big (a / b)) ∧
    (∀ a b : ℚ, Number.rem (.Machine a) (.Machine b) = .Big (ratRem a b)) ∧
    (∀ x y : Number,
      (Number.add x y).toRat = x.toRat + y.toRat ∧
      (Number.sub x y).toRat = x.toRat - y.toRat ∧
      (Number.mul x y).toRat = x.toRat * y.toRat ∧
      (Number.rem x y).toRat = ratRem x.toRat y.toRat ∧
      (y.toRat ≠ 0 → (Number.div x y).toRat = x.toRat / y.toRat)) :=
  ⟨Number.add_machine_machine, Number.sub_machine_machine,
    Number.mul_machine_machine,
    fun a b hb => Number.div_machine_machine a b hb,
    fun _ _ => rfl, Number.toRat_ops⟩

/-- C2 witness: the amended statement applied at the concrete machine
operands `1 / 2`, whose division stays in the machine tier. -/
theorem c2_machine_first_except_rem_witness :
    Number.div (Number.Machine 1) (Number.Machine 2) =
      if repr64 ((1 : ℚ) / 2) then Number.Machine ((1 : ℚ) / 2)
      else Number.Big ((1 : ℚ) / 2) :=
  c2_machine_first_except_rem.2.2.2.1 1 2 (by norm_num)

/-- C1 counterexample: in `Op::precedence` the relational operator `<`
has the same precedence as the equality operator `==` (not strictly
higher), and `not` has strictly lower precedence than the binary
operator `+` (not higher than every binary operator), refuting the
claimed precedence ordering. -/
theorem c1_precedence_counterexample :
    Op.precedence Op.LessThan = Op.precedence Op.Equal ∧
    Op.precedence Op.Not < Op.precedence Op.Plus := by
  constructor
  · rfl
  · decide

/-- C1 (amended): `Op::precedence` assigns, from highest to lowest:
`*`, `/`, `%` (level 3); `+`, `-` (level 2); the six comparison
operators `==`, `!=`, `>`, `>=`, `<`, `<=` all together (level 1); and
`and`, `or`, `not` all together at the lowest level 0.  Relational and
equality operators share a precedence level, and `not` shares the
lowest level with `and` and `or`. -/
theorem c1_precedence_levels :
    (Op.precedence .And = 0 ∧ Op.precedence .Or = 0 ∧ Op.precedence .Not = 0) ∧
    (Op.precedence .Equal = 1 ∧ Op.precedence .NotEqual = 1 ∧
      Op.precedence .GreaterThan = 1 ∧ Op.precedence .GreaterThanEqual = 1 ∧
      Op.precedence .LessThan = 1 ∧ Op.precedence .LessThanEqual = 1) ∧
    (Op.precedence .Plus = 2 ∧ Op.precedence .Minus = 2) ∧
    (Op.precedence .Mul = 3 ∧ Op.precedence .Div = 3 ∧ Op.precedence .Rem = 3) := by
  decide

/-! ## Decimal display of numbers (`impl Display for Number`) -/

/-- The display precision constant from `value/number/mod.rs`. -/
def PRECISION : Nat := 10

/-- Rounding to the nearest integer with half-way cases away from zero,
as num-rational's `round` behaves. -/
def roundHalfAway (q : ℚ) : Int := if 0 ≤ q then ⌊q + 1 / 2⌋ else ⌈q - 1 / 2⌉

/-- The digit-extraction loop of `impl Display for Number`: on each of
at most `fuel` iterations the fractional remainder is multiplied by 10,
the integer part becomes the next digit, and the loop stops early when
the remainder reaches zero.  Returns the digits and the remainder. -/
def fracLoop : Nat → ℚ → List Nat × ℚ
  | 0, frac => ([], frac)
  | n + 1, frac =>
    if frac * 10 - (ratTruncInt (frac * 10) : ℚ) = 0 then
      ([(ratTruncInt (frac * 10)).toNat], 0)
    else
      ((ratTruncInt (frac * 10)).toNat ::
          (fracLoop n (frac * 10 - (ratTruncInt (frac * 10) : ℚ))).1,
        (fracLoop n (frac * 10 - (ratTruncInt (frac * 10) : ℚ))).2)

/-- The carry loop of `impl Display for Number`, on the reversed digit
list (the source pops from the end of the digit string): trailing 9s
are dropped, the first non-9 digit is incremented; `none` means the
carry propagates out of the fractional digits entirely. -/
def carryRev : List Nat → Option (List Nat)
  | [] => none
  | d :: ds => if d = 9 then carryRev ds else some ((d + 1) :: ds)

/-- The trim loop of `impl Display for Number`, on the reversed digit
list: trailing zero digits are dropped. -/
def trimRev : List Nat → List Nat
  | [] => []
  | d :: ds => if d = 0 then trimRev ds else d :: ds

/-- The displayed form of a number: sign, integer part, fractional
digits. -/
structure NumDisplay where
  neg : Bool
  whole : Nat
  dec : List Nat
deriving DecidableEq

/-- The epilogue of `impl Display for Number`: the sign is emitted only
when the number is negative and something nonzero is displayed. -/
def mkNumDisplay (q : ℚ) (whole : Nat) (dec : List Nat) : NumDisplay :=
  { neg := decide (q < 0) && (decide (whole ≠ 0) || decide (dec ≠ [])),
    whole := whole, dec := dec }

/-- The tail of the digit pipeline of `impl Display for Number`: given
the integer part and the digit-loop output, apply the rounding digit
with carry-on-10 propagation (which may increment the integer part) or
trailing-zero trimming when the rounding digit is 0. -/
def displayCore (whole : Nat) (p : List Nat × ℚ) : Nat × List Nat :=
  if p.2 = 0 then (whole, p.1)
  else if roundHalfAway (p.2 * 10) = 10 then
    match carryRev p.1.reverse with
    | some rev => (whole, rev.reverse)
    | none => (whole + 1, [])
  else if roundHalfAway (p.2 * 10) = 0 then (whole, (trimRev p.1.reverse).reverse)
  else (whole, p.1 ++ [(roundHalfAway (p.2 * 10)).toNat])

/-- The decimal display algorithm from `impl Display for Number`:
integer part from the truncated absolute value; up to `PRECISION - 1`
fractional digits extracted exactly by `fracLoop`; then the rounding
and carry tail of `displayCore`; the sign is decided last. -/
def displayNumber (q : ℚ) : NumDisplay :=
  if q.den = 1 then mkNumDisplay q (ratTruncInt q).natAbs []
  else
    mkNumDisplay q
      (displayCore (ratTruncInt q).natAbs
        (fracLoop (PRECISION - 1) (|q| - (ratTruncInt |q| : ℚ)))).1
      (displayCore (ratTruncInt q).natAbs
        (fracLoop (PRECISION - 1) (|q| - (ratTruncInt |q| : ℚ)))).2

/-- Truncation agrees with the floor on nonnegative rationals. -/
theorem ratTruncInt_of_nonneg {q : ℚ} (h : 0 ≤ q) : ratTruncInt q = ⌊q⌋ := by
  simp [ratTruncInt, h]

/-- The digit loop produces at most `fuel` digits. -/
theorem fracLoop_length_le (n : Nat) (frac : ℚ) :
    (fracLoop n frac).1.length ≤ n := by
  induction n generalizing frac with
  | zero => simp [fracLoop]
  | succ n ih =>
    simp only [fracLoop]
    split
    · simp
    · simpa using ih _

/-- The digit loop keeps the remainder inside `[0, 1)`. -/
theorem fracLoop_snd_mem (n : Nat) (frac : ℚ) (h0 : 0 ≤ frac) (h1 : frac < 1) :
    0 ≤ (fracLoop n frac).2 ∧ (fracLoop n frac).2 < 1 := by
  induction n generalizing frac with
  | zero => exact ⟨h0, h1⟩
  | succ n ih =>
    simp only [fracLoop]
    split
    · norm_num
    · have hr : frac * 10 - (ratTruncInt (frac * 10) : ℚ) = Int.fract (frac * 10) := by
        rw [ratTruncInt_of_nonneg (by positivity), Int.self_sub_floor]
      exact ih _ (by rw [hr]; exact Int.fract_nonneg _)
        (by rw [hr]; exact Int.fract_lt_one _)

/-- When the digit loop stops because the remainder became zero, the
digit list is nonempty and its last digit is nonzero. -/
theorem fracLoop_getLast_ne_zero (n : Nat) (frac : ℚ) (hpos : 0 < frac)
    (h1 : frac < 1) (hz : (fracLoop n frac).2 = 0) :
    (fracLoop n frac).1 ≠ [] ∧ (fracLoop n frac).1.getLast? ≠ some 0 := by
  induction n generalizing frac with
  | zero => exact absurd hz (by simpa [fracLoop] using hpos.ne')
  | succ n ih =>
    have hfr : frac * 10 - (ratTruncInt (frac * 10) : ℚ) = Int.fract (frac * 10) := by
      rw [ratTruncInt_of_nonneg (by positivity), Int.self_sub_floor]
    simp only [fracLoop] at hz ⊢
    split at hz
    · rename_i hzero
      have heq : (ratTruncInt (frac * 10) : ℚ) = frac * 10 := by
        have := sub_eq_zero.mp hzero
        linarith
      have h10 : (0 : ℚ) < frac * 10 := by positivity
      have hd : 0 < ratTruncInt (frac * 10) := by exact_mod_cast heq ▸ h10
      rw [if_pos hzero]
      refine ⟨by simp, ?_⟩
      simp only [List.getLast?_singleton, ne_eq, Option.some.injEq]
      omega
    · rename_i hnz
      have hr0 : 0 ≤ frac * 10 - (ratTruncInt (frac * 10) : ℚ) := by
        rw [hfr]; exact Int.fract_nonneg _
      have hr1 : frac * 10 - (ratTruncInt (frac * 10) : ℚ) < 1 := by
        rw [hfr]; exact Int.fract_lt_one _
      have hrpos : 0 < frac * 10 - (ratTruncInt (frac * 10) : ℚ) :=
        lt_of_le_of_ne hr0 (fun h => hnz h.symm)
      obtain ⟨hne, hlast⟩ := ih _ hrpos hr1 hz
      rw [if_neg hnz]
      refine ⟨by simp, ?_⟩
      cases hl : (fracLoop n (frac * 10 - (ratTruncInt (frac * 10) : ℚ))).1 with
      | nil => exact absurd hl hne
      | cons x xs =>
        rw [hl] at hlast
        show ((ratTruncInt (frac * 10)).toNat :: x :: xs).getLast? ≠ some 0
        rw [List.getLast?_cons_cons]
        exact hlast

/-- A successful carry never lengthens the digit list. -/
theorem carryRev_length_le (l out : List Nat) (h : carryRev l = some out) :
    out.length ≤ l.length := by
  induction l generalizing out with
  | nil => simp [carryRev] at h
  | cons d ds ih =>
    simp only [carryRev] at h
    split at h
    · exact le_trans (ih _ h) (by simp)
    · cases h; simp

/-- A successful carry produces a list headed by an incremented digit. -/
theorem carryRev_head (l out : List Nat) (h : carryRev l = some out) :
    ∃ d ds, out = (d + 1) :: ds := by
  induction l generalizing out with
  | nil => simp [carryRev] at h
  | cons d ds ih =>
    simp only [carryRev] at h
    split at h
    · exact ih _ h
    · exact ⟨d, ds, by cases h; rfl⟩

/-- Trimming never lengthens the digit list. -/
theorem trimRev_length_le (l : List Nat) : (trimRev l).length ≤ l.length := by
  induction l with
  | nil => simp [trimRev]
  | cons d ds ih =>
    simp only [trimRev]
    split
    · exact le_trans ih (by simp)
    · simp

/-- A trimmed digit list is empty or headed by a nonzero digit. -/
theorem trimRev_head (l : List Nat) :
    trimRev l = [] ∨ ∃ d ds, trimRev l = d :: ds ∧ d ≠ 0 := by
  induction l with
  | nil => exact Or.inl rfl
  | cons d ds ih =>
    simp only [trimRev]
    split
    · exact ih
    · exact Or.inr ⟨d, ds, rfl, by assumption⟩

/-- A nonempty reversed list's last element is the head before
reversal. -/
theorem getLast?_reverse' (l : List Nat) : l.reverse.getLast? = l.head? := by
  cases l with
  | nil => rfl
  | cons x xs => simp [List.getLast?_reverse]

/-- Absolute value preserves the denominator of a rational. -/
theorem abs_den (q : ℚ) : |q|.den = q.den := by
  rcases abs_cases q with ⟨h, _⟩ | ⟨h, _⟩
  · rw [h]
  · rw [h, Rat.neg_den]

/-- A rational whose denominator is not 1 has a positive fractional
part of its absolute value. -/
theorem fract_abs_pos {q : ℚ} (h : q.den ≠ 1) : 0 < Int.fract |q| := by
  rcases lt_or_eq_of_le (Int.fract_nonneg |q|) with hlt | heq
  · exact hlt
  · exfalso
    have hsf := Int.self_sub_floor |q|
    have habs : |q| = (⌊|q|⌋ : ℚ) := by linarith [heq.symm ▸ hsf]
    have hden : q.den = 1 := by
      rw [← abs_den q, habs, Rat.den_intCast]
    exact h hden

/-- The rounding/carry/trim tail keeps the digit count within one of
the loop's digit count and never leaves a trailing zero digit. -/
theorem displayCore_spec (whole : Nat) (p : List Nat × ℚ) (h0 : 0 ≤ p.2)
    (hlast : p.2 = 0 → p.1.getLast? ≠ some 0) :
    (displayCore whole p).2.length ≤ p.1.length + 1 ∧
    (displayCore whole p).2.getLast? ≠ some 0 := by
  unfold displayCore
  split
  · rename_i hz
    refine ⟨?_, hlast hz⟩
    show p.1.length ≤ p.1.length + 1
    omega
  · rename_i hz
    split
    · split
      · rename_i rev hcarry
        obtain ⟨d, ds, hds⟩ := carryRev_head _ _ hcarry
        have hclen := carryRev_length_le _ _ hcarry
        constructor
        · simp only [List.length_reverse]
          simp only [List.length_reverse] at hclen
          omega
        · rw [getLast?_reverse', hds]
          simp
      · exact ⟨by simp, by simp⟩
    · split
      · constructor
        · have := trimRev_length_le p.1.reverse
          simp only [List.length_reverse] at this ⊢
          omega
        · rw [getLast?_reverse']
          rcases trimRev_head p.1.reverse with hnil | ⟨d, ds, hds, hd⟩
          · simp [hnil]
          · simp [hds, hd]
      · rename_i hne10 hne0
        have hppos : 0 < p.2 := lt_of_le_of_ne h0 (fun h => hz h.symm)
        have hepos : 0 < roundHalfAway (p.2 * 10) := by
          have hnn : (0 : ℚ) ≤ p.2 * 10 := by positivity
          have hge : 0 ≤ roundHalfAway (p.2 * 10) := by
            rw [roundHalfAway, if_pos hnn]
            have hh : (0 : ℚ) ≤ p.2 * 10 + 1 / 2 := by linarith
            exact Int.le_floor.mpr (by exact_mod_cast hh)
          omega
        constructor
        · simp only [List.length_append, List.length_singleton]
          omega
        · simp only [List.getLast?_concat, ne_eq, Option.some.injEq]
          omega

/-- C3: for every rational, the displayed decimal form has at most
`PRECISION = 10` fractional digits (up to `PRECISION - 1 = 9` digits
extracted exactly by repeated multiplication by 10, plus at most one
half-away-from-zero rounding digit), and never ends in a trailing zero
digit. -/
theorem c3_display_fractional_digits (q : ℚ) :
    (displayNumber q).dec.length ≤ PRECISION ∧
    (displayNumber q).dec.getLast? ≠ some 0 := by
  unfold displayNumber
  split
  · simp [mkNumDisplay]
  · rename_i hden
    have hfr : |q| - (ratTruncInt |q| : ℚ) = Int.fract |q| := by
      rw [ratTruncInt_of_nonneg (abs_nonneg q), Int.self_sub_floor]
    have hpos : 0 < |q| - (ratTruncInt |q| : ℚ) := by
      rw [hfr]; exact fract_abs_pos hden
    have hlt1 : |q| - (ratTruncInt |q| : ℚ) < 1 := by
      rw [hfr]; exact Int.fract_lt_one _
    have hlen := fracLoop_length_le (PRECISION - 1) (|q| - (ratTruncInt |q| : ℚ))
    have hmem := fracLoop_snd_mem (PRECISION - 1) (|q| - (ratTruncInt |q| : ℚ))
      (le_of_lt hpos) hlt1
    have hspec := displayCore_spec (ratTruncInt q).natAbs
      (fracLoop (PRECISION - 1) (|q| - (ratTruncInt |q| : ℚ))) hmem.1
      (fun hz => (fracLoop_getLast_ne_zero _ _ hpos hlt1 hz).2)
    refine ⟨?_, by simpa [mkNumDisplay] using hspec.2⟩
    have hb : (displayCore (ratTruncInt q).natAbs
        (fracLoop (PRECISION - 1) (|q| - (ratTruncInt |q| : ℚ)))).2.length ≤
        (PRECISION - 1) + 1 := le_trans hspec.1 (by omega)
    simpa [mkNumDisplay, PRECISION] using le_trans hb (by norm_num [PRECISION])

/-! ## The `nth` builtin (`src/builtin/list.rs`) -/

/-- The error for a zero index, from the `nth` builtin. -/
def nthZeroError : String := "$n: List index may not be 0."

/-- The error for an out-of-range index, from the `nth` builtin
(the source interpolates the index and length into the message). -/
def nthInvalidError (n : ℚ) (len : Nat) : String :=
  "$n: Invalid index " ++ toString n.num ++ " for a list with " ++
    toString len ++ " elements."

/-- The error for a fractional index, from the `nth` builtin. -/
def nthNotIntError : String := "$n: is not an int."

/-- The `nth` builtin from `builtin/list.rs`, after its arguments have
been evaluated: a zero index errors first; then an index whose absolute
value exceeds the length errors; then a non-integer index errors; a
positive index `n` selects element `n - 1` from the front, a negative
index `-k` selects element `len - k`. -/
def nth {α : Type} [Inhabited α] (list : List α) (n : ℚ) : Except String α :=
  if n = 0 then .error nthZeroError
  else if (list.length : ℚ) < |n| then .error (nthInvalidError n list.length)
  else if n.den ≠ 1 then .error nthNotIntError
  else if 0 < n then .ok (list.getD (n.num.toNat - 1) default)
  else .ok (list.getD (list.length - n.num.natAbs) default)

/-- C4: `nth(list, -1)` on a nonempty list returns the last element;
more generally a negative integer index `-k` (with `1 ≤ k ≤ length`)
returns the `k`-th element from the end; and `nth(list, 0)` on every
list (also the empty one) fails with the index-may-not-be-0 error. -/
theorem c4_nth_negative_and_zero {α : Type} [Inhabited α]
    (l l2 : List α) (h : l ≠ []) (k : Nat) (hk1 : 1 ≤ k) (hk2 : k ≤ l.length) :
    nth l (-1) = .ok (l.getLast h) ∧
    nth l (-(k : ℚ)) = .ok (l.getD (l.length - k) default) ∧
    nth l2 0 = .error nthZeroError := by
  have hlen : 1 ≤ l.length := by
    cases l with
    | nil => exact absurd rfl h
    | cons x xs => simp
  have hneg : ∀ m : Nat, 1 ≤ m → m ≤ l.length →
      nth l (-(m : ℚ)) = .ok (l.getD (l.length - m) default) := by
    intro m hm1 hm2
    have hne : (-(m : ℚ)) ≠ 0 := by
      simp only [ne_eq, neg_eq_zero, Nat.cast_eq_zero]
      omega
    have habs : |(-(m : ℚ))| = (m : ℚ) := by
      rw [abs_neg, abs_of_nonneg (by positivity)]
    have hrange : ¬((l.length : ℚ) < |(-(m : ℚ))|) := by
      rw [habs]
      exact not_lt.mpr (by exact_mod_cast hm2)
    have hden : (-(m : ℚ)).den = 1 := by
      rw [Rat.neg_den, Rat.den_natCast]
    have hnpos : ¬(0 < -(m : ℚ)) := by
      simp only [not_lt, Left.neg_nonpos_iff]
      positivity
    have hnum : (-(m : ℚ)).num.natAbs = m := by
      rw [Rat.neg_num, Rat.num_natCast]
      simp
    rw [nth, if_neg hne, if_neg hrange, if_neg (by simp [hden]), if_neg hnpos, hnum]
  refine ⟨?_, hneg k hk1 hk2, ?_⟩
  · have h1 := hneg 1 le_rfl hlen
    rw [show ((1 : Nat) : ℚ) = 1 by norm_num] at h1
    rw [h1, List.getLast_eq_getElem]
    congr 1
    rw [List.getD_eq_getElem?_getD, List.getElem?_eq_getElem (by omega)]
    simp
  · rw [nth, if_pos rfl]

/-- C4 witness: the theorem applied at the concrete list `[10, 20, 30]`
with `k = 2`, and at the empty list for the zero index. -/
theorem c4_nth_negative_and_zero_witness :
    nth [10, 20, 30] (-1) = .ok 30 ∧
    nth [10, 20, 30] (-(2 : Nat) : ℚ) = .ok 20 ∧
    nth ([] : List Nat) 0 = .error nthZeroError := by
  have h := c4_nth_negative_and_zero [10, 20, 30] ([] : List Nat)
    (by simp) 2 (by norm_num) (by simp)
  refine ⟨?_, ?_, h.2.2⟩
  · have := h.1
    simpa using this
  · have := h.2.1
    simpa using this

/-! ## Color builtins (`src/builtin/color/other.rs`) -/

/-- A color as stored by the color model: exact rational RGBA channels,
red/green/blue in `[0, 255]`, alpha in `[0, 1]`. -/
structure RGBA where
  red : ℚ
  green : ℚ
  blue : ℚ
  alpha : ℚ
deriving DecidableEq

/-- The inner `scale` function of `scale_color` in
`builtin/color/other.rs`: a zero amount leaves the value unchanged, a
positive amount moves toward `mx`, a negative amount moves toward 0
(`amt` is the `by` parameter, already divided by 100). -/
def scale (val amt mx : ℚ) : ℚ :=
  if amt = 0 then val else val + (if 0 < amt then mx - val else val) * amt

/-- Modelled from the spec: `Color::as_hsla` (in the color model, which
is not under `src/`) converts exact RGBA to HSLA by the standard
algorithm on exact rationals; hue in degrees `[0, 360)`, saturation and
lightness in `[0, 1]`. -/
def asHsla (c : RGBA) : ℚ × ℚ × ℚ × ℚ :=
  let r := c.red / 255
  let g := c.green / 255
  let b := c.blue / 255
  let mx := max r (max g b)
  let mn := min r (min g b)
  let l := (mx + mn) / 2
  let d := mx - mn
  let s := if d = 0 then 0 else d / (1 - |2 * l - 1|)
  let h0 :=
    if d = 0 then 0
    else if mx = r then 60 * ((g - b) / d)
    else if mx = g then 60 * ((b - r) / d + 2)
    else 60 * ((r - g) / d + 4)
  (if h0 < 0 then h0 + 360 else h0, s, l, c.alpha)

/-- Modelled from the spec: `Color::from_hsla` (in the color model,
which is not under `src/`) converts HSLA to exact RGBA by the standard
algorithm on exact rationals. -/
def fromHsla (h s l a : ℚ) : RGBA :=
  let hn := h - 360 * (⌊h / 360⌋ : ℚ)
  let c := (1 - |2 * l - 1|) * s
  let hp := hn / 60
  let x := c * (1 - |hp - 2 * (⌊hp / 2⌋ : ℚ) - 1|)
  let m := l - c / 2
  if hp < 1 then ⟨(c + m) * 255, (x + m) * 255, (0 + m) * 255, a⟩
  else if hp < 2 then ⟨(x + m) * 255, (c + m) * 255, (0 + m) * 255, a⟩
  else if hp < 3 then ⟨(0 + m) * 255, (c + m) * 255, (x + m) * 255, a⟩
  else if hp < 4 then ⟨(0 + m) * 255, (x + m) * 255, (c + m) * 255, a⟩
  else if hp < 5 then ⟨(x + m) * 255, (0 + m) * 255, (c + m) * 255, a⟩
  else ⟨(c + m) * 255, (0 + m) * 255, (x + m) * 255, a⟩

/-- Modelled from the spec: the `bound!` macro of the builtin color
functions errors when a channel argument falls outside its range. -/
def boundCheck (v lo hi : ℚ) : Except String ℚ :=
  if v < lo ∨ hi < v then .error ("Channel out of bounds.") else .ok v

/-- The `opt_rgba` macro of `builtin/color/other.rs`: an optional
channel argument, bound-checked (the not-a-number error path is
unrepresentable here because arguments are typed as rationals). -/
def optRgba (v : Option ℚ) (lo hi : ℚ) : Except String (Option ℚ) :=
  match v with
  | some x => (boundCheck x lo hi).map some
  | none => .ok none

/-- The `opt_hsl` macro of `builtin/color/other.rs`: like `opt_rgba`
but the value is divided by 100 after the bound check. -/
def optHsl (v : Option ℚ) (lo hi : ℚ) : Except String (Option ℚ) :=
  match v with
  | some x => (boundCheck x lo hi).map (fun y => some (y / 100))
  | none => .ok none

/-- The `opt_scale_arg` macro of `scale_color`: a percentage in
`[-100, 100]`, divided by 100 (the wrong-unit and not-a-number error
paths are unrepresentable here because arguments are typed). -/
def optScaleArg (v : Option ℚ) : Except String (Option ℚ) :=
  match v with
  | some x => (boundCheck x (-100) 100).map (fun y => some (y / 100))
  | none => .ok none

/-- `change_color` from `builtin/color/other.rs`: parses alpha and the
RGB channels first; if any RGB channel was passed the RGB branch
returns immediately (never looking at hue/saturation/lightness);
otherwise the HSL branch or the alpha-only branch applies.  The
one-positional-argument check and the not-a-number errors are elided
by typing. -/
def changeColor (c : RGBA)
    (alpha red green blue hue saturation lightness : Option ℚ) :
    Except String RGBA := do
  let alpha2 ← optRgba alpha 0 1
  let red2 ← optRgba red 0 255
  let green2 ← optRgba green 0 255
  let blue2 ← optRgba blue 0 255
  if red2.isSome || green2.isSome || blue2.isSome then
    return { red := red2.getD c.red, green := green2.getD c.green,
             blue := blue2.getD c.blue, alpha := alpha2.getD c.alpha }
  let saturation2 ← optHsl saturation 0 100
  let lightness2 ← optHsl lightness 0 100
  if hue.isSome || saturation2.isSome || lightness2.isSome then
    return fromHsla (hue.getD (asHsla c).1) (saturation2.getD (asHsla c).2.1)
      (lightness2.getD (asHsla c).2.2.1) (alpha2.getD (asHsla c).2.2.2)
  match alpha2 with
  | some a => return { c with alpha := a }
  | none => return c

/-- `adjust_color` from `builtin/color/other.rs`: like `change_color`
but channel arguments are added to the current channel values; the RGB
branch again returns without looking at hue/saturation/lightness. -/
def adjustColor (c : RGBA)
    (alpha red green blue hue saturation lightness : Option ℚ) :
    Except String RGBA := do
  let alpha2 ← optRgba alpha (-1) 1
  let red2 ← optRgba red (-255) 255
  let green2 ← optRgba green (-255) 255
  let blue2 ← optRgba blue (-255) 255
  if red2.isSome || green2.isSome || blue2.isSome then
    return { red := c.red + red2.getD 0, green := c.green + green2.getD 0,
             blue := c.blue + blue2.getD 0, alpha := c.alpha + alpha2.getD 0 }
  let saturation2 ← optHsl saturation (-100) 100
  let lightness2 ← optHsl lightness (-100) 100
  if hue.isSome || saturation2.isSome || lightness2.isSome then
    return fromHsla ((asHsla c).1 + hue.getD 0) ((asHsla c).2.1 + saturation2.getD 0)
      ((asHsla c).2.2.1 + lightness2.getD 0) ((asHsla c).2.2.2 + alpha2.getD 0)
  match alpha2 with
  | some a => return { c with alpha := c.alpha + a }
  | none => return c

/-- `scale_color` from `builtin/color/other.rs`: percentage arguments
are bound-checked and divided by 100, then each addressed channel is
moved by the inner `scale` rule; the RGB branch returns without looking
at saturation/lightness (`scale-color` takes no hue argument; the HSL
branch scales hue by zero). -/
def scaleColorCall (c : RGBA)
    (alpha red green blue saturation lightness : Option ℚ) :
    Except String RGBA := do
  let alpha2 ← optScaleArg alpha
  let red2 ← optScaleArg red
  let green2 ← optScaleArg green
  let blue2 ← optScaleArg blue
  if red2.isSome || green2.isSome || blue2.isSome then
    return { red := scale c.red (red2.getD 0) 255,
             green := scale c.green (green2.getD 0) 255,
             blue := scale c.blue (blue2.getD 0) 255,
             alpha := scale c.alpha (alpha2.getD 0) 1 }
  let saturation2 ← optScaleArg saturation
  let lightness2 ← optScaleArg lightness
  if saturation2.isSome || lightness2.isSome then
    return fromHsla (scale (asHsla c).1 0 360)
      (scale (asHsla c).2.1 (saturation2.getD 0) 1)
      (scale (asHsla c).2.2.1 (lightness2.getD 0) 1)
      (scale (asHsla c).2.2.2 (alpha2.getD 0) 1)
  match alpha2 with
  | some a => return { c with alpha := scale c.alpha a 1 }
  | none => return c

/-- One hexadecimal digit character (lowercase). -/
def hexDigitChar (n : Nat) : Char :=
  if n < 10 then Char.ofNat (48 + n) else Char.ofNat (87 + n)

/-- Two hexadecimal digits of a byte. -/
def byteHex (n : Nat) : String := String.mk [hexDigitChar (n / 16), hexDigitChar (n % 16)]

/-- Modelled from the spec: six-digit hex emission of a color (the
serializer is not under `src/`); each exact channel is rounded to the
nearest integer, halves away from zero. -/
def rgbHexString (c : RGBA) : String :=
  "#" ++ byteHex (roundHalfAway c.red).toNat ++ byteHex (roundHalfAway c.green).toNat
    ++ byteHex (roundHalfAway c.blue).toNat

/-- C5: for every channel value and percentage `amt` in `[-100, 100]`,
the `scale-color` rule sets the channel to `v + (max - v) * amt/100`
when `amt` is positive, `v + v * amt/100` when negative, and leaves it
unchanged when zero; and concretely
`scale-color(#ff0000, $lightness: 50%)` yields the color `#ff8080`. -/
theorem c5_scale_color (v amt mx : ℚ) (_h1 : -100 ≤ amt) (_h2 : amt ≤ 100) :
    (0 < amt → scale v (amt / 100) mx = v + (mx - v) * (amt / 100)) ∧
    (amt < 0 → scale v (amt / 100) mx = v + v * (amt / 100)) ∧
    (amt = 0 → scale v (amt / 100) mx = v) ∧
    scaleColorCall ⟨255, 0, 0, 1⟩ none none none none none (some 50) =
      .ok ⟨255, 255 / 2, 255 / 2, 1⟩ ∧
    (scaleColorCall ⟨255, 0, 0, 1⟩ none none none none none
        (some 50)).map rgbHexString = .ok "#ff8080" := by
  have hA : asHsla ⟨255, 0, 0, 1⟩ = (0, 1, 1 / 2, 1) := by
    norm_num [asHsla, max_def, min_def]
  have hmain : scaleColorCall ⟨255, 0, 0, 1⟩ none none none none none (some 50) =
      .ok ⟨255, 255 / 2, 255 / 2, 1⟩ := by
    have hstep : scaleColorCall ⟨255, 0, 0, 1⟩ none none none none none (some 50) =
        .ok (fromHsla (scale 0 0 360) (scale 1 0 1) (scale (1 / 2) (1 / 2) 1)
          (scale 1 0 1)) := by
      simp [scaleColorCall, optScaleArg, boundCheck, hA, bind, Except.bind, pure,
        Except.pure, Except.map]
      norm_num
    have hs1 : scale (0 : ℚ) 0 360 = 0 := by norm_num [scale]
    have hs2 : scale (1 : ℚ) 0 1 = 1 := by norm_num [scale]
    have hs3 : scale ((1 : ℚ) / 2) (1 / 2) 1 = 3 / 4 := by norm_num [scale]
    have habs : |(1 : ℚ) / 2| = 1 / 2 := abs_of_nonneg (by norm_num)
    have habs1 : |(-1 : ℚ)| = 1 := by rw [abs_neg, abs_one]
    have hF : fromHsla 0 1 (3 / 4) 1 = ⟨255, 255 / 2, 255 / 2, 1⟩ := by
      norm_num [fromHsla, habs, habs1]
    rw [hstep, hs1, hs2, hs3, hF]
  have hhex : rgbHexString ⟨255, 255 / 2, 255 / 2, 1⟩ = "#ff8080" := by
    have hr1 : roundHalfAway (255 : ℚ) = 255 := by norm_num [roundHalfAway]
    have hr2 : roundHalfAway ((255 : ℚ) / 2) = 128 := by norm_num [roundHalfAway]
    rw [rgbHexString]
    rw [show (⟨255, 255 / 2, 255 / 2, 1⟩ : RGBA).red = (255 : ℚ) from rfl]
    rw [show (⟨255, 255 / 2, 255 / 2, 1⟩ : RGBA).green = ((255 : ℚ) / 2) from rfl]
    rw [show (⟨255, 255 / 2, 255 / 2, 1⟩ : RGBA).blue = ((255 : ℚ) / 2) from rfl]
    rw [hr1, hr2]
    decide
  refine ⟨?_, ?_, ?_, hmain, ?_⟩
  · intro h
    have hpos : 0 < amt / 100 := div_pos h (by norm_num)
    rw [scale, if_neg (ne_of_gt hpos), if_pos hpos]
  · intro h
    have hneg : amt / 100 < 0 := div_neg_of_neg_of_pos h (by norm_num)
    rw [scale, if_neg (ne_of_lt hneg), if_neg (not_lt.mpr (le_of_lt hneg))]
  · intro h
    rw [scale, if_pos (by rw [h]; norm_num)]
  · rw [hmain]
    simp only [Except.map]
    rw [hhex]

/-- C5 witness: the theorem applied at channel value 0, amount 50,
maximum 255, extracting the concrete `scale-color` evaluation. -/
theorem c5_scale_color_witness :
    scaleColorCall ⟨255, 0, 0, 1⟩ none none none none none (some 50) =
      .ok ⟨255, 255 / 2, 255 / 2, 1⟩ :=
  (c5_scale_color 0 50 255 (by norm_num) (by norm_num)).2.2.2.1

/-- C6 counterexample: `change-color` called with both an RGB-family
argument (`$red: 0`) and an HSL-family argument (`$hue: 120`) does not
fail: the RGB branch returns a color and the hue argument is silently
ignored. -/
theorem c6_mixed_families_counterexample :
    changeColor ⟨255, 0, 0, 1⟩ none (some 0) none none (some 120) none none =
      .ok ⟨0, 0, 0, 1⟩ := by
  simp [changeColor, optRgba, boundCheck, bind, Except.bind, pure, Except.pure,
    Except.map]
  norm_num

/-- C6 (amended): a call to `change-color` (likewise `adjust-color` and
`scale-color`) that passes both an RGB-family channel argument and an
HSL-family argument does not fail; the RGB branch takes precedence and
the HSL-family arguments are ignored (they do not influence the
result). -/
theorem c6_rgb_family_precedence (c : RGBA) (r : ℚ) (hr0 : 0 ≤ r) (hr255 : r ≤ 255)
    (hue saturation lightness : Option ℚ) :
    changeColor c none (some r) none none hue saturation lightness =
      .ok { red := r, green := c.green, blue := c.blue, alpha := c.alpha } ∧
    adjustColor c none (some r) none none hue saturation lightness =
      .ok { red := c.red + r, green := c.green, blue := c.blue, alpha := c.alpha } ∧
    (r ≤ 100 → scaleColorCall c none (some r) none none saturation lightness =
      .ok { red := scale c.red (r / 100) 255, green := c.green, blue := c.blue,
            alpha := c.alpha }) := by
  have hb : boundCheck r 0 255 = .ok r := by
    rw [boundCheck, if_neg]
    push_neg
    exact ⟨hr0, hr255⟩
  have hb2 : boundCheck r (-255) 255 = .ok r := by
    rw [boundCheck, if_neg]
    push_neg
    exact ⟨le_trans (by norm_num) hr0, hr255⟩
  refine ⟨?_, ?_, fun hr100 => ?_⟩
  · simp [changeColor, optRgba, hb, bind, Except.bind, pure, Except.pure, Except.map]
  · simp [adjustColor, optRgba, hb2, bind, Except.bind, pure, Except.pure, Except.map]
  · have hb3 : boundCheck r (-100) 100 = .ok r := by
      rw [boundCheck, if_neg]
      push_neg
      exact ⟨le_trans (by norm_num) hr0, hr100⟩
    simp [scaleColorCall, optScaleArg, hb3, bind, Except.bind, pure, Except.pure,
      Except.map, scale]

/-- C6 witness for the amended statement: a concrete call passing both
`$red` and all three HSL-family arguments returns the RGB-updated
color. -/
theorem c6_rgb_family_precedence_witness :
    changeColor ⟨10, 20, 30, 1⟩ none (some 5) none none (some 7) (some 8) (some 9) =
      .ok ⟨5, 20, 30, 1⟩ :=
  (c6_rgb_family_precedence ⟨10, 20, 30, 1⟩ 5 (by norm_num) (by norm_num)
    (some 7) (some 8) (some 9)).1

/-! ## Hex color parsing (`parse_hex` in `src/value/parse.rs`) -/

/-- ASCII hexadecimal digit test, as `char::is_ascii_hexdigit`. -/
def isHexDigitChar (c : Char) : Bool :=
  c.isDigit || (('a' ≤ c) && (c ≤ 'f')) || (('A' ≤ c) && (c ≤ 'F'))

/-- Characters allowed in a plain identifier. -/
def isIdentChar (c : Char) : Bool := c.isAlphanum || c = '-' || c = '_'

/-- Splits a character list at the first character failing the
predicate. -/
def spanP (p : Char → Bool) : List Char → List Char × List Char
  | [] => ([], [])
  | c :: cs =>
    if p c then ((c :: (spanP p cs).1), (spanP p cs).2) else ([], c :: cs)

/-- Modelled from the spec: `eat_ident` (in `utils.rs`, which is not
under `src/`) reads an identifier; simplified here to a plain run of
identifier characters, without `\HH` escapes or `#{...}`
interpolation. -/
def eatIdentChars (l : List Char) : String × List Char :=
  (String.mk (spanP isIdentChar l).1, (spanP isIdentChar l).2)

/-- The digit-collection loop of `parse_hex`: starting at an ASCII
digit, consume hexadecimal digits while fewer than 8 have been
collected. -/
def collectHex : List Char → Nat → List Char × List Char
  | [], _ => ([], [])
  | c :: cs, len =>
    if ¬(isHexDigitChar c = true) ∨ len = 8 then ([], c :: cs)
    else ((c :: (collectHex cs (len + 1)).1), (collectHex cs (len + 1)).2)

/-- The numeric value of one hexadecimal digit character. -/
def hexDigitVal (c : Char) : Nat :=
  if c.isDigit then c.toNat - 48
  else if ('a' ≤ c) && (c ≤ 'f') then c.toNat - 87
  else c.toNat - 55

/-- Base-16 string value as `uN::from_str_radix` behaves on the short
strings `parse_hex` passes it: fails exactly when a character is not a
hexadecimal digit (overflow cannot occur at lengths at most 8). -/
def hexVal (l : List Char) : Option Nat :=
  l.foldl (fun acc c => acc.bind fun x =>
    if isHexDigitChar c then some (x * 16 + hexDigitVal c) else none) (some 0)

/-- The value produced by `parse_hex`: a color (channels as passed to
`Color::new`, including the expanded nibbles and the raw alpha) or an
unquoted identifier. -/
inductive HexValue where
  | color (red green blue alpha : Nat) (orig : String)
  | ident (s : String)
deriving DecidableEq

/-- The error produced by `parse_hex` for a hex-digit run whose length
is not 3, 4, 6 or 8. -/
def hexErr : String := "Expected hex digit."

/-- The length dispatch of `parse_hex` (`match s.len()`): lengths 3, 4,
6, 8 build colors via nibble expansion or byte extraction, any other
length is the `Expected hex digit.` error; a failing radix parse falls
back to an identifier (unreachable for hex-digit strings). -/
def hexFromString (s : String) : Except String HexValue :=
  if s.length = 3 then
    match hexVal s.data with
    | some v => .ok (.color (v / 256 % 16 * 17) (v / 16 % 16 * 17) (v % 16 * 17) 1
        ("#" ++ s))
    | none => .ok (.ident ("#" ++ s))
  else if s.length = 4 then
    match hexVal s.data with
    | some v => .ok (.color (v / 4096 % 16 * 17) (v / 256 % 16 * 17) (v / 16 % 16 * 17)
        (v % 16 * 17) ("#" ++ s))
    | none => .ok (.ident ("#" ++ s))
  else if s.length = 6 then
    match hexVal s.data with
    | some v => .ok (.color (v / 65536 % 256) (v / 256 % 256) (v % 256) 1 ("#" ++ s))
    | none => .ok (.ident ("#" ++ s))
  else if s.length = 8 then
    match hexVal s.data with
    | some v => .ok (.color (v / 16777216 % 256) (v / 65536 % 256) (v / 256 % 256)
        (v % 256) ("#" ++ s))
    | none => .ok (.ident ("#" ++ s))
  else .error hexErr

/-- The identifier branch of `parse_hex`: when the token after `#` does
not start with a digit, an identifier is read; if it consists entirely
of hexadecimal digits it is dispatched on its length, otherwise the
unquoted identifier `#xxx` is produced. -/
def parseHexTail (i : String) (rest : List Char) :
    Except String (HexValue × List Char) :=
  if i = "" then .error "Expected identifier."
  else if i.data.all isHexDigitChar then (hexFromString i).map (fun v => (v, rest))
  else .ok (.ident ("#" ++ i), rest)

/-- `parse_hex` from `value/parse.rs`, on the characters following the
`#`: a digit-leading run collects up to 8 hexadecimal digits, an
identifier-leading run reads the identifier; both then dispatch on the
collected length. -/
def parseHex (toks : List Char) : Except String (HexValue × List Char) :=
  match toks with
  | [] => .error "Expected identifier."
  | c :: _ =>
    if c.isDigit then
      (hexFromString (String.mk (collectHex toks 0).1)).map
        (fun v => (v, (collectHex toks 0).2))
    else
      parseHexTail (eatIdentChars toks).1 (eatIdentChars toks).2

/-- Folding a run of hexadecimal digits never fails. -/
theorem hexVal_go_isSome (l : List Char) (a : Nat)
    (h : l.all isHexDigitChar = true) :
    ∃ v, l.foldl (fun acc c => acc.bind fun x =>
      if isHexDigitChar c then some (x * 16 + hexDigitVal c) else none)
      (some a) = some v := by
  induction l generalizing a with
  | nil => exact ⟨a, rfl⟩
  | cons c cs ih =>
    simp only [List.all_cons, Bool.and_eq_true] at h
    simp only [List.foldl_cons, Option.bind_some, if_pos h.1]
    exact ih _ h.2

/-- `hexVal` succeeds on every all-hex-digit string. -/
theorem hexVal_isSome (l : List Char) (h : l.all isHexDigitChar = true) :
    ∃ v, hexVal l = some v :=
  hexVal_go_isSome l 0 h

/-- C7 counterexample: five hexadecimal digits after `#` make
`parse_hex` fail with `Expected hex digit.`, not produce the unquoted
identifier `#12345`. -/
theorem c7_hex_length_counterexample :
    parseHex ("12345").data = .error hexErr ∧
    (Except.error hexErr : Except String (HexValue × List Char)) ≠
      .ok (.ident "#12345", []) :=
  ⟨rfl, fun h => Except.noConfusion h⟩

/-- C7 (amended): for a run of hexadecimal digits after `#`, lengths 3,
4, 6 and 8 produce `Color` values (with the original `#` spelling
retained), and every other length fails with the error
`Expected hex digit.`; the unquoted-identifier fallback `#xxx` occurs
only when the identifier after `#` contains a character that is not a
hexadecimal digit. -/
theorem c7_hex_lengths (s : String) (hall : s.data.all isHexDigitChar = true) :
    ((s.length = 3 ∨ s.length = 4 ∨ s.length = 6 ∨ s.length = 8) →
      ∃ r g b a, hexFromString s = .ok (.color r g b a ("#" ++ s))) ∧
    (s.length ≠ 3 → s.length ≠ 4 → s.length ≠ 6 → s.length ≠ 8 →
      hexFromString s = .error hexErr) ∧
    (∀ i : String, ∀ rest : List Char, i ≠ "" →
      i.data.all isHexDigitChar = false →
      parseHexTail i rest = .ok (.ident ("#" ++ i), rest)) := by
  obtain ⟨v, hv⟩ := hexVal_isSome s.data hall
  refine ⟨fun hlen => ?_, fun h3 h4 h6 h8 => ?_, fun i rest hne hfalse => ?_⟩
  · rcases hlen with h | h | h | h <;>
      simp only [hexFromString, h, hv] <;>
      norm_num
  · rw [hexFromString, if_neg h3, if_neg h4, if_neg h6, if_neg h8]
  · rw [parseHexTail, if_neg hne, if_neg (by rw [hfalse]; exact Bool.false_ne_true)]

/-- C7 witness: the amended statement applied at the all-hex strings
`abc` (length 3, a color) and `abcde` (length 5, the error). -/
theorem c7_hex_lengths_witness :
    (∃ r g b a, hexFromString "abc" = .ok (.color r g b a ("#" ++ "abc"))) ∧
    hexFromString "abcde" = .error hexErr := by
  refine ⟨(c7_hex_lengths "abc" (by decide)).1 (Or.inl (by decide)), ?_⟩
  exact (c7_hex_lengths "abcde" (by decide)).2.1
    (by decide) (by decide) (by decide) (by decide)

/-! ## Expression reduction (`src/value/parse.rs`) -/

/-- The subset of the `Value` union involved in operator reduction;
`dim` is a `Dimension` (its unit is immaterial to the reduction
shape). -/
inductive Value where
  | dim : ℚ → Value
  | ident : String → Value
  | null : Value
  | important : Value
  | unaryOp : Op → Value → Value
  | binaryOp : Value → Op → Value → Value
  | list : List Value → ListSeparator → Brackets → Value

/-- The intermediate-value stream of `Value::from_tokens`
(`Bracketed` and `Paren` re-enter the token-level parser and are not
needed for the reduction rules proved here). -/
inductive IntermediateValue where
  | value : Value → IntermediateValue
  | op : Op → IntermediateValue
  | comma : IntermediateValue
  | whitespace : IntermediateValue

/-- `devour_whitespace` on the intermediate stream: skips whitespace
entries and reports whether any was skipped. -/
def devourWhitespace : List IntermediateValue → Bool × List IntermediateValue
  | .whitespace :: rest => (true, (devourWhitespace rest).2)
  | l => (false, l)

/-- Modelled from the spec: `Value::neg` (in the value operations,
which are not under `src/`) negates a dimension's magnitude; the other
operands are not reached by the statements below and conservatively
error. -/
def Value.negVal : Value → Except String Value
  | .dim q => .ok (.dim (-q))
  | _ => .error "Invalid operand."

/-- `single_value` from `value/parse.rs`: takes one value from the
stream; a leading `-` negates the next single value, a leading `not`
wraps it in a unary node; the source's `todo!()` arm is an error
here. -/
def singleValue : Nat → List IntermediateValue →
    Except String (Value × List IntermediateValue)
  | _, [] => .error "Expected expression."
  | 0, _ :: _ => .error "Expected expression."
  | fuel + 1, iv :: rest =>
    match iv with
    | .value v => .ok (v, rest)
    | .op o =>
      match o with
      | .Minus =>
        match singleValue fuel (devourWhitespace rest).2 with
        | .ok (v, rest2) => (Value.negVal v).map (fun n => (n, rest2))
        | .error e => .error e
      | .Not =>
        match singleValue fuel (devourWhitespace rest).2 with
        | .ok (v, rest2) => .ok (.unaryOp .Not v, rest2)
        | .error e => .error e
      | _ => .error "Unhandled operator."
    | .whitespace => .error "Unreachable whitespace."
    | .comma => .error "Expected expression."

/-- The `And`/`Or` arm of `eat_op`: at the end of input the operator
becomes a bare identifier; otherwise a binary node with the popped
left operand. -/
def eatOpAndOr (fuel : Nat) (o : Op) (stack : List Value)
    (rest : List IntermediateValue) :
    Except String (List Value × List IntermediateValue) :=
  match (devourWhitespace rest).2 with
  | [] => .ok (.ident o.display :: stack, [])
  | r1 =>
    match stack with
    | left :: stack2 =>
      match singleValue fuel (devourWhitespace r1).2 with
      | .ok (right, rest2) => .ok (.binaryOp left o right :: stack2, rest2)
      | .error e => .error e
    | [] => .error "Expected expression."

/-- `eat_op` from `value/parse.rs`.  The `Minus` arm decides between
binary subtraction and unary negation solely by whether whitespace
follows the `-` in the stream: whitespace after it makes a binary node
with the popped left value (unary only when no value precedes), no
whitespace after it always makes a unary node pushed as a separate
space-separated element (with the special `-null` identifier case). -/
def eatOp (fuel : Nat) (o : Op) (stack : List Value)
    (rest : List IntermediateValue) :
    Except String (List Value × List IntermediateValue) :=
  match o with
  | .Not =>
    match singleValue fuel (devourWhitespace rest).2 with
    | .ok (right, rest2) => .ok (.unaryOp .Not right :: stack, rest2)
    | .error e => .error e
  | .Plus =>
    match stack with
    | left :: stack2 =>
      match singleValue fuel (devourWhitespace rest).2 with
      | .ok (right, rest2) => .ok (.binaryOp left .Plus right :: stack2, rest2)
      | .error e => .error e
    | [] =>
      match singleValue fuel (devourWhitespace rest).2 with
      | .ok (right, rest2) => .ok ([.unaryOp .Plus right], rest2)
      | .error e => .error e
  | .Minus =>
    if (devourWhitespace rest).1 then
      match singleValue fuel (devourWhitespace rest).2 with
      | .ok (right, rest2) =>
        match stack with
        | left :: stack2 => .ok (.binaryOp left .Minus right :: stack2, rest2)
        | [] => .ok ([.unaryOp .Minus right], rest2)
      | .error e => .error e
    else
      match singleValue fuel rest with
      | .ok (right, rest2) =>
        match right with
        | .null => .ok (.ident "-null" :: stack, rest2)
        | _ => .ok (.unaryOp .Minus right :: stack, rest2)
      | .error e => .error e
  | .And => eatOpAndOr fuel .And stack rest
  | .Or => eatOpAndOr fuel .Or stack rest
  | _ =>
    match stack with
    | left :: stack2 =>
      match singleValue fuel (devourWhitespace rest).2 with
      | .ok (right, rest2) => .ok (.binaryOp left o right :: stack2, rest2)
      | .error e => .error e
    | [] => .error "Expected expression."

/-- The reduction loop of `Value::from_tokens` (second pass): values
pile onto the space-separated stack, operators go through `eat_op`,
commas move the collected space run onto the comma-separated stack. -/
def reduceGo : Nat → List IntermediateValue → List Value → List Value →
    Except String (List Value × List Value)
  | 0, _, _, _ => .error "Insufficient fuel."
  | _ + 1, [], space, comma => .ok (space, comma)
  | fuel + 1, iv :: rest, space, comma =>
    match iv with
    | .value v => reduceGo fuel rest (v :: space) comma
    | .op o =>
      match eatOp fuel o space rest with
      | .ok (space2, rest2) => reduceGo fuel rest2 space2 comma
      | .error e => .error e
    | .whitespace => reduceGo fuel rest space comma
    | .comma =>
      match space with
      | [v] => reduceGo fuel rest [] (v :: comma)
      | [] => .error "Panicked: index out of bounds."
      | vs => reduceGo fuel rest [] (.list vs.reverse .Space .None :: comma)

/-- The final assembly of `Value::from_tokens`: with commas present the
result is a comma list (a trailing space run becomes one element);
otherwise a single value stays bare and anything else becomes a space
list. -/
def fromIntermediates (stream : List IntermediateValue) : Except String Value :=
  match reduceGo (stream.length + 1) stream [] [] with
  | .error e => .error e
  | .ok (space, comma) =>
    match comma with
    | [] =>
      match space with
      | [v] => .ok v
      | vs => .ok (.list vs.reverse .Space .None)
    | _ =>
      .ok (.list (match space with
        | [v] => (v :: comma).reverse
        | [] => comma.reverse
        | vs => (Value.list vs.reverse .Space .None :: comma).reverse) .Comma .None)

/-- C8 counterexample: the stream `1 -2` (a value, whitespace, `-` with
no whitespace after it, a value) reduces to the space-separated list
`1 (-2)`, not to the binary subtraction `1 - 2`. -/
theorem c8_minus_counterexample :
    fromIntermediates [.value (.dim 1), .whitespace, .op .Minus, .value (.dim 2)] =
      .ok (.list [.dim 1, .unaryOp .Minus (.dim 2)] .Space .None) ∧
    (Except.ok (Value.list [.dim 1, .unaryOp .Minus (.dim 2)] .Space .None) :
        Except String Value) ≠
      .ok (.binaryOp (.dim 1) .Minus (.dim 2)) := by
  refine ⟨rfl, fun h => ?_⟩
  injection h with h2
  exact Value.noConfusion h2

/-- C8 (amended): during reduction the `-` token makes a binary
subtraction exactly when whitespace follows it in the stream (and a
value precedes it); a `-` preceded by a value with whitespace on its
left but no whitespace on its right is parsed as a unary negation that
becomes a separate element of a space-separated list. -/
theorem c8_minus_whitespace_rules (a b : Value) (hb : b ≠ .null) :
    fromIntermediates [.value a, .whitespace, .op .Minus, .whitespace, .value b] =
      .ok (.binaryOp a .Minus b) ∧
    fromIntermediates [.value a, .op .Minus, .whitespace, .value b] =
      .ok (.binaryOp a .Minus b) ∧
    fromIntermediates [.value a, .whitespace, .op .Minus, .value b] =
      .ok (.list [a, .unaryOp .Minus b] .Space .None) ∧
    fromIntermediates [.value a, .op .Minus, .value b] =
      .ok (.list [a, .unaryOp .Minus b] .Space .None) := by
  refine ⟨?_, ?_, ?_, ?_⟩
  · simp [fromIntermediates, reduceGo, eatOp, singleValue, devourWhitespace]
  · simp [fromIntermediates, reduceGo, eatOp, singleValue, devourWhitespace]
  · cases b <;>
      first
        | exact absurd rfl hb
        | simp [fromIntermediates, reduceGo, eatOp, singleValue, devourWhitespace]
  · cases b <;>
      first
        | exact absurd rfl hb
        | simp [fromIntermediates, reduceGo, eatOp, singleValue, devourWhitespace]

/-- C8 witness: the amended statement applied at two concrete
dimension operands. -/
theorem c8_minus_whitespace_rules_witness :
    fromIntermediates [.value (.dim 3), .whitespace, .op .Minus, .whitespace,
      .value (.dim 4)] = .ok (.binaryOp (.dim 3) .Minus (.dim 4)) :=
  (c8_minus_whitespace_rules (.dim 3) (.dim 4) (fun h => Value.noConfusion h)).1

/-! ## The style parser (`src/style.rs`) -/

/-- The open-brace character (written by code point). -/
def lbrace : Char := Char.ofNat 123

/-- The close-brace character (written by code point). -/
def rbrace : Char := Char.ofNat 125

/-- `devour_whitespace` on a raw character stream. -/
def devourWsChars (l : List Char) : List Char := l.dropWhile Char.isWhitespace

/-- A character ending a style value: `;` or a brace. -/
def isStyleValueEnd (c : Char) : Bool := c = ';' || c = lbrace || c = rbrace

/-- Drops trailing whitespace. -/
def trimRightChars (l : List Char) : List Char :=
  (l.reverse.dropWhile Char.isWhitespace).reverse

/-- Modelled from the spec: `parse_style_value` delegates to the value
expression parser, abstracted here to the raw value text up to the next
`;`, open brace or close brace, with surrounding whitespace trimmed. -/
def parseStyleValue (toks : List Char) : String × List Char :=
  (String.mk (trimRightChars
      (spanP (fun c => !(isStyleValueEnd c)) (devourWsChars toks)).1),
    (spanP (fun c => !(isStyleValueEnd c)) (devourWsChars toks)).2)

/-- The missing-colon error of `StyleParser::parse_property`. -/
def propertyColonError : String := "Expected \":\"."

/-- `StyleParser::parse_property` from `style.rs`: reads the (sub-)
property name, expects `:`, and hyphen-joins it onto a nonempty super
property. -/
def parseProperty (toks : List Char) (superProp : String) :
    Except String (String × List Char) :=
  match eatIdentChars (devourWsChars toks) with
  | (prop, t2) =>
    match devourWsChars t2 with
    | ':' :: t4 =>
      .ok ((if superProp = "" then prop else superProp ++ "-" ++ prop),
        devourWsChars t4)
    | _ => .error propertyColonError

/-- A single declaration: property name and value text. -/
structure Style where
  property : String
  value : String
deriving DecidableEq

/-- The style-carrying constructors of `Expr` (`Style` and `Styles`). -/
inductive StyleExpr where
  | style : Style → StyleExpr
  | styles : List Style → StyleExpr
deriving DecidableEq

/-- The `Expr::Style`/`Expr::Styles` extension used when a nested group
returns (`match ... Expr::Styles(s) => extend, Expr::Style(s) =>
push`). -/
def StyleExpr.toList : StyleExpr → List Style
  | .style s => [s]
  | .styles ss => ss

mutual

/-- `StyleParser::eat_style_group` from `style.rs`: a leading `{`
enters the declaration loop; otherwise a direct value is parsed for the
super property and, when a `{` follows it, the direct declaration is
emitted first and the nested group (keyed by the same super property)
is appended. -/
def eatStyleGroup : Nat → List Char → String →
    Except String (StyleExpr × List Char)
  | 0, _, _ => .error "Insufficient fuel."
  | fuel + 1, toks0, superProp =>
    match devourWsChars toks0 with
    | [] => .ok (.styles [], [])
    | c :: t1 =>
      if c = lbrace then eatStyleGroupLoop fuel (devourWsChars t1) superProp []
      else
        match parseStyleValue (c :: t1) with
        | (value, t2) =>
          match t2 with
          | [] => .error "expected more input."
          | d :: t3 =>
            if d = ';' then .ok (.style ⟨superProp, value⟩, devourWsChars t3)
            else if d = lbrace then
              match eatStyleGroup fuel (d :: t3) superProp with
              | .ok (e, t4) =>
                .ok (.styles (⟨superProp, value⟩ :: StyleExpr.toList e), t4)
              | .error err => .error err
            else .ok (.style ⟨superProp, value⟩, d :: t3)

/-- The declaration loop inside the braces of `eat_style_group`: parse
a (hyphen-joined) property; a `{` after it recurses into a nested group
keyed by the joined name, otherwise a value is parsed and pushed. -/
def eatStyleGroupLoop : Nat → List Char → String → List Style →
    Except String (StyleExpr × List Char)
  | 0, _, _, _ => .error "Insufficient fuel."
  | fuel + 1, toks, superProp, styles =>
    match parseProperty toks superProp with
    | .error e => .error e
    | .ok (property, t1) =>
      match t1 with
      | c :: _ =>
        if c = lbrace then
          match eatStyleGroup fuel t1 property with
          | .ok (e, t2) =>
            styleEpilogue fuel (devourWsChars t2) superProp
              (styles ++ StyleExpr.toList e)
          | .error err => .error err
        else eatStyleValuePush fuel t1 superProp property styles
      | [] => eatStyleValuePush fuel [] superProp property styles

/-- The value arm of the declaration loop: parse the value, then
dispatch on the next token (`}` leaves it for the epilogue, `;` is
consumed, `{` recurses into a nested group emitting the direct
declaration first). -/
def eatStyleValuePush : Nat → List Char → String → String → List Style →
    Except String (StyleExpr × List Char)
  | 0, _, _, _, _ => .error "Insufficient fuel."
  | fuel + 1, t1, superProp, property, styles =>
    match parseStyleValue t1 with
    | (value, t2) =>
      match t2 with
      | c :: t3 =>
        if c = rbrace then
          styleEpilogue fuel t2 superProp (styles ++ [⟨property, value⟩])
        else if c = ';' then
          styleEpilogue fuel (devourWsChars t3) superProp
            (styles ++ [⟨property, value⟩])
        else if c = lbrace then
          match eatStyleGroup fuel t2 property with
          | .ok (e, t4) =>
            styleEpilogue fuel t4 superProp
              (styles ++ ⟨property, value⟩ :: StyleExpr.toList e)
          | .error err => .error err
        else
          styleEpilogue fuel (devourWsChars t2) superProp
            (styles ++ [⟨property, value⟩])
      | [] => styleEpilogue fuel [] superProp (styles ++ [⟨property, value⟩])

/-- The loop epilogue: a `}` closes the group and returns the collected
declarations, anything else continues the loop. -/
def styleEpilogue : Nat → List Char → String → List Style →
    Except String (StyleExpr × List Char)
  | 0, _, _, _ => .error "Insufficient fuel."
  | fuel + 1, toks, superProp, styles =>
    match toks with
    | c :: t2 =>
      if c = rbrace then .ok (.styles styles, devourWsChars t2)
      else eatStyleGroupLoop fuel toks superProp styles
    | [] => eatStyleGroupLoop fuel [] superProp styles

end

/-- `spanP` splits exactly at the first failing character. -/
theorem spanP_all_stop (pr : Char → Bool) (xs : List Char) (y : Char)
    (ys : List Char) (hall : xs.all pr = true) (hy : pr y = false) :
    spanP pr (xs ++ y :: ys) = (xs, y :: ys) := by
  induction xs with
  | nil => simp [spanP, hy]
  | cons c cs ih =>
    simp only [List.all_cons, Bool.and_eq_true] at hall
    simp [spanP, hall.1, ih hall.2]

/-- An identifier character is not whitespace. -/
theorem isIdentChar_not_ws (c : Char) (h : isIdentChar c = true) :
    c.isWhitespace = false := by
  cases hws : c.isWhitespace
  · rfl
  · exfalso
    simp only [Char.isWhitespace, Bool.or_eq_true, decide_eq_true_eq] at hws
    rcases hws with ((h1 | h1) | h1) | h1 <;> subst h1 <;> exact absurd h (by decide)

/-- C9: the style parser folds nested property shorthand by
hyphen-joining names: `parse_property` under a nonempty super property
produces `super-sub`; `property: { sub: value; }` emits the single
declaration `property-sub: value`; and a direct value followed by a
nested block (`font: 10pt { weight: bold }`) emits both `font: 10pt`
and `font-weight: bold`, the direct declaration first. -/
theorem c9_nested_property_shorthand :
    (∀ (sp p : String) (rest : List Char), sp ≠ "" → p ≠ "" →
      p.data.all isIdentChar = true →
      parseProperty (p.data ++ ':' :: rest) sp =
        .ok (sp ++ "-" ++ p, devourWsChars rest)) ∧
    eatStyleGroup 64 (lbrace :: (" sub: value; ").data ++ [rbrace]) "property" =
      .ok (.styles [⟨"property-sub", "value"⟩], []) ∧
    eatStyleGroup 64
        (("10pt ").data ++ lbrace :: (" weight: bold ").data ++ [rbrace]) "font" =
      .ok (.styles [⟨"font", "10pt"⟩, ⟨"font-weight", "bold"⟩], []) := by
  refine ⟨?_, rfl, rfl⟩
  intro sp p rest hsp hp hall
  have hdata : p.data ≠ [] := by
    intro hnil
    apply hp
    cases p with
    | mk l =>
      have hl : l = [] := hnil
      subst hl
      rfl
  obtain ⟨c, cs, hcs⟩ := List.exists_cons_of_ne_nil hdata
  rw [hcs] at hall
  simp only [List.all_cons, Bool.and_eq_true] at hall
  have hnws : c.isWhitespace = false := isIdentChar_not_ws c hall.1
  have hdw : devourWsChars (p.data ++ ':' :: rest) = c :: (cs ++ ':' :: rest) := by
    rw [hcs, List.cons_append, devourWsChars, List.dropWhile_cons, hnws]
    simp
  have hspan : spanP isIdentChar (c :: (cs ++ ':' :: rest)) = (c :: cs, ':' :: rest) := by
    have h2 := spanP_all_stop isIdentChar (c :: cs) ':' rest
      (by simp [hall.1, hall.2]) (by decide)
    simpa using h2
  have hmk : String.mk (c :: cs) = p := by rw [← hcs]
  rw [parseProperty, hdw]
  simp only [eatIdentChars, hspan]
  rw [show devourWsChars (':' :: rest) = ':' :: rest from by
    rw [devourWsChars, List.dropWhile_cons, if_neg (by decide)]]
  rw [if_neg hsp, hmk]
  rfl

/-- C9 witness: the hyphen-join rule applied at the concrete super
property `font` and sub property `weight`. -/
theorem c9_nested_property_shorthand_witness :
    parseProperty (("weight").data ++ ':' :: ((" bold").data)) "font" =
      .ok ("font-weight", devourWsChars ((" bold").data)) :=
  c9_nested_property_shorthand.1 "font" "weight" ((" bold").data)
    (by decide) (by decide) (by decide)

/-! ## Mixin evaluation (`src/atrule/mixin.rs`) -/

/-- The statements produced by mixin evaluation (selector text and
at-rule payloads kept opaque). -/
inductive MixinStmt where
  | style : Style → MixinStmt
  | atRule : String → MixinStmt
  | ruleSet : String → List MixinStmt → MixinStmt
  | comment : String → MixinStmt

/-- One expression of a mixin body as delivered by `eat_expr` (the
statement-level parser, which is not under `src/`): the looping and
conditional at-rules carry their externally computed results, a
`selector` opens a nested ruleset whose statements follow in the same
stream until the matching `blockEnd` (`eat_expr` returning `None` at a
closing brace). -/
inductive MixinExpr where
  | atRuleFor (res : Except String (List MixinStmt))
  | atRuleEach (res : Except String (List MixinStmt))
  | atRuleWhile (res : Except String (List MixinStmt))
  | atRuleIf (res : Except String (List MixinStmt))
  | atRuleInclude (stmts : List MixinStmt)
  | atRuleContent
  | atRuleReturn
  | atRuleDebug
  | atRuleWarn
  | atRuleOther (name : String)
  | exprStyle (s : Style)
  | exprStyles (ss : List Style)
  | functionDecl
  | mixinDecl
  | selector (sel : String)
  | variableDecl (name : String)
  | comment (text : String)
  | blockEnd

/-- The error for a function declaration inside a mixin body. -/
def mixinFnDeclError : String := "Mixins may not contain function declarations."

/-- The error for a mixin declaration inside a mixin body. -/
def mixinMixinDeclError : String := "Mixins may not contain mixin declarations."

/-- `Mixin::eval` from `atrule/mixin.rs`: the statement loop over the
body's expressions.  Styles, comments and pre-evaluated at-rules
accumulate; `@content` splices the caller's content block; `@return`,
`@debug`/`@warn` (a `todo!()` panic in the source) and the two
declaration forms abort with an error; a selector recurses into the
same stream and wraps the statements collected up to the matching
`blockEnd` into a ruleset. -/
def mixinEvalGo (content : List MixinStmt) :
    Nat → List MixinExpr → List MixinStmt →
    Except String (List MixinStmt × List MixinExpr)
  | 0, _, _ => .error "Insufficient fuel."
  | _ + 1, [], stmts => .ok (stmts, [])
  | fuel + 1, e :: rest, stmts =>
    match e with
    | .atRuleFor r =>
      match r with
      | .ok s => mixinEvalGo content fuel rest (stmts ++ s)
      | .error err => .error err
    | .atRuleEach r =>
      match r with
      | .ok s => mixinEvalGo content fuel rest (stmts ++ s)
      | .error err => .error err
    | .atRuleWhile r =>
      match r with
      | .ok s => mixinEvalGo content fuel rest (stmts ++ s)
      | .error err => .error err
    | .atRuleIf r =>
      match r with
      | .ok s => mixinEvalGo content fuel rest (stmts ++ s)
      | .error err => .error err
    | .atRuleInclude s => mixinEvalGo content fuel rest (stmts ++ s)
    | .atRuleContent => mixinEvalGo content fuel rest (stmts ++ content)
    | .atRuleReturn => .error "This at-rule is not allowed here."
    | .atRuleDebug => .error "Panicked: not yet implemented."
    | .atRuleWarn => .error "Panicked: not yet implemented."
    | .atRuleOther n => mixinEvalGo content fuel rest (stmts ++ [.atRule n])
    | .exprStyle s => mixinEvalGo content fuel rest (stmts ++ [.style s])
    | .exprStyles ss => mixinEvalGo content fuel rest (stmts ++ ss.map .style)
    | .functionDecl => .error mixinFnDeclError
    | .mixinDecl => .error mixinMixinDeclError
    | .selector sel =>
      match mixinEvalGo content fuel rest [] with
      | .ok (rules, rest2) =>
        mixinEvalGo content fuel rest2 (stmts ++ [.ruleSet sel rules])
      | .error err => .error err
    | .variableDecl _ => mixinEvalGo content fuel rest stmts
    | .comment t => mixinEvalGo content fuel rest (stmts ++ [.comment t])
    | .blockEnd => .ok (stmts, rest)

/-- `Mixin::eval` on a whole body: the statement loop started with an
empty accumulator (the fuel covers any stream of the body's length). -/
def mixinEval (content : List MixinStmt) (body : List MixinExpr) :
    Except String (List MixinStmt) :=
  (mixinEvalGo content (body.length + 1) body []).map (fun p => p.1)

/-- The expressions at which one step of `Mixin::eval` aborts, with
their error. -/
def exprFails : MixinExpr → Option String
  | .atRuleFor (.error e) => some e
  | .atRuleEach (.error e) => some e
  | .atRuleWhile (.error e) => some e
  | .atRuleIf (.error e) => some e
  | .atRuleReturn => some "This at-rule is not allowed here."
  | .atRuleDebug => some "Panicked: not yet implemented."
  | .atRuleWarn => some "Panicked: not yet implemented."
  | .functionDecl => some mixinFnDeclError
  | .mixinDecl => some mixinMixinDeclError
  | _ => none

/-- Walking a prefix of non-aborting, non-block-end expressions, the
evaluation loop reaches the first aborting expression and returns its
error. -/
theorem mixinEvalGo_hits_bad (content : List MixinStmt) (msg : String)
    (bad : MixinExpr) (hmsg : exprFails bad = some msg) :
    ∀ (pre : List MixinExpr) (fuel : Nat) (stmts : List MixinStmt)
      (post : List MixinExpr),
      (∀ e ∈ pre, exprFails e = none ∧ e ≠ .blockEnd) →
      pre.length + 1 ≤ fuel →
      mixinEvalGo content fuel (pre ++ bad :: post) stmts = .error msg := by
  intro pre
  induction pre with
  | nil =>
    intro fuel stmts post _ hfuel
    obtain ⟨f, rfl⟩ : ∃ f, fuel = f + 1 := ⟨fuel - 1, by omega⟩
    cases bad <;>
      first
        | (rename_i r
           cases r <;> simp_all [exprFails, mixinEvalGo])
        | simp_all [exprFails, mixinEvalGo]
  | cons e pre ih =>
    intro fuel stmts post hpre hfuel
    obtain ⟨f, rfl⟩ : ∃ f, fuel = f + 1 := ⟨fuel - 1, by omega⟩
    have hf : pre.length + 1 ≤ f := by
      simp only [List.length_cons] at hfuel
      omega
    have he := hpre e (List.mem_cons_self e pre)
    have hpre2 : ∀ x ∈ pre, exprFails x = none ∧ x ≠ MixinExpr.blockEnd :=
      fun x hx => hpre x (List.mem_cons_of_mem e hx)
    cases e with
    | atRuleFor r =>
      cases r with
      | ok s =>
        simpa only [List.cons_append, mixinEvalGo] using ih f (stmts ++ s) post hpre2 hf
      | error err => simp [exprFails] at he
    | atRuleEach r =>
      cases r with
      | ok s =>
        simpa only [List.cons_append, mixinEvalGo] using ih f (stmts ++ s) post hpre2 hf
      | error err => simp [exprFails] at he
    | atRuleWhile r =>
      cases r with
      | ok s =>
        simpa only [List.cons_append, mixinEvalGo] using ih f (stmts ++ s) post hpre2 hf
      | error err => simp [exprFails] at he
    | atRuleIf r =>
      cases r with
      | ok s =>
        simpa only [List.cons_append, mixinEvalGo] using ih f (stmts ++ s) post hpre2 hf
      | error err => simp [exprFails] at he
    | atRuleInclude s =>
      simpa only [List.cons_append, mixinEvalGo] using ih f (stmts ++ s) post hpre2 hf
    | atRuleContent =>
      simpa only [List.cons_append, mixinEvalGo] using
        ih f (stmts ++ content) post hpre2 hf
    | atRuleReturn => simp [exprFails] at he
    | atRuleDebug => simp [exprFails] at he
    | atRuleWarn => simp [exprFails] at he
    | atRuleOther n =>
      simpa only [List.cons_append, mixinEvalGo] using
        ih f (stmts ++ [.atRule n]) post hpre2 hf
    | exprStyle s =>
      simpa only [List.cons_append, mixinEvalGo] using
        ih f (stmts ++ [.style s]) post hpre2 hf
    | exprStyles ss =>
      simpa only [List.cons_append, mixinEvalGo] using
        ih f (stmts ++ ss.map MixinStmt.style) post hpre2 hf
    | functionDecl => simp [exprFails] at he
    | mixinDecl => simp [exprFails] at he
    | selector sel =>
      simp only [List.cons_append, mixinEvalGo, List.append_eq, ih f [] post hpre2 hf]
    | variableDecl n =>
      simpa only [List.cons_append, mixinEvalGo] using ih f stmts post hpre2 hf
    | comment t =>
      simpa only [List.cons_append, mixinEvalGo] using
        ih f (stmts ++ [.comment t]) post hpre2 hf
    | blockEnd => exact absurd rfl he.2

/-- C10: evaluating a mixin whose body contains a function declaration
or a mixin declaration (not hidden behind an earlier aborting
expression or a closing brace) always fails, with the error
`Mixins may not contain function declarations.` or
`Mixins may not contain mixin declarations.` respectively, and no
statements from such a body are produced. -/
theorem c10_mixin_decl_errors (content : List MixinStmt)
    (pre post : List MixinExpr) (bad : MixinExpr)
    (hbad : bad = .functionDecl ∨ bad = .mixinDecl)
    (hpre : ∀ e ∈ pre, exprFails e = none ∧ e ≠ .blockEnd) :
    (bad = .functionDecl →
      mixinEval content (pre ++ bad :: post) = .error mixinFnDeclError) ∧
    (bad = .mixinDecl →
      mixinEval content (pre ++ bad :: post) = .error mixinMixinDeclError) ∧
    ∀ stmts, mixinEval content (pre ++ bad :: post) ≠ .ok stmts := by
  have hfuel : pre.length + 1 ≤ (pre ++ bad :: post).length + 1 := by
    simp only [List.length_append, List.length_cons]
    omega
  have herr : ∀ msg, exprFails bad = some msg →
      mixinEval content (pre ++ bad :: post) = .error msg := by
    intro msg hmsg
    rw [mixinEval, mixinEvalGo_hits_bad content msg bad hmsg pre _ [] post hpre hfuel]
    rfl
  refine ⟨fun h => ?_, fun h => ?_, fun stmts hok => ?_⟩
  · exact herr mixinFnDeclError (by rw [h]; rfl)
  · exact herr mixinMixinDeclError (by rw [h]; rfl)
  · rcases hbad with h | h
    · rw [herr mixinFnDeclError (by rw [h]; rfl)] at hok
      exact Except.noConfusion hok
    · rw [herr mixinMixinDeclError (by rw [h]; rfl)] at hok
      exact Except.noConfusion hok

/-- C10 witness: a concrete mixin body (one style declaration, then a
function declaration, then the closing brace) fails with the
function-declaration error. -/
theorem c10_mixin_decl_errors_witness :
    mixinEval [] [.exprStyle ⟨"color", "red"⟩, .functionDecl, .blockEnd] =
      .error mixinFnDeclError := by
  have h := c10_mixin_decl_errors [] [.exprStyle ⟨"color", "red"⟩] [.blockEnd]
    .functionDecl (Or.inl rfl) ?_
  · exact h.1 rfl
  · intro e hmem
    have hev : e = MixinExpr.exprStyle ⟨"color", "red"⟩ := by simpa using hmem
    subst hev
    exact ⟨rfl, fun h2 => MixinExpr.noConfusion h2⟩

end Grass

